import Mathlib

/-!
Verification of the core of a Ruby-ecosystem package resolver
(version algebra, compact-index client, resolver driver, lockfile writer)
against its natural-language specification.

Strings manipulated by the program are modelled as `List Char` (the
program only ever handles ASCII text, where Rust's byte-wise string
order coincides with the code-point order used here).
-/

namespace Bundle

/-- Strings of the modelled program, as lists of characters. -/
abbrev Str := List Char

/-- Character comparison: Rust compares strings byte-wise; on ASCII (and in
fact on all of Unicode, since UTF-8 preserves code-point order) this is
comparison of code points. -/
def chCmp (a b : Char) : Ordering := compare a.toNat b.toNat

/-- Lexicographic string comparison, mirroring Rust's `str::cmp`. -/
def strCmp : Str → Str → Ordering
  | [], [] => .eq
  | [], _ :: _ => .lt
  | _ :: _, [] => .gt
  | a :: as, b :: bs =>
    match chCmp a b with
    | .eq => strCmp as bs
    | o => o

theorem chCmp_swap (a b : Char) : (chCmp a b).swap = chCmp b a :=
  Nat.compare_swap a.toNat b.toNat

theorem chCmp_eq_iff {a b : Char} : chCmp a b = .eq ↔ a = b := by
  unfold chCmp
  rw [Nat.compare_eq_eq]
  constructor
  · intro h
    have h2 := congrArg Char.ofNat h
    rwa [Char.ofNat_toNat, Char.ofNat_toNat] at h2
  · intro h; rw [h]

theorem strCmp_swap (a b : Str) : (strCmp a b).swap = strCmp b a := by
  induction a generalizing b with
  | nil => cases b <;> rfl
  | cons x xs ih =>
    cases b with
    | nil => rfl
    | cons y ys =>
      simp only [strCmp]
      rw [← chCmp_swap x y]
      cases chCmp x y
      · rfl
      · exact ih ys
      · rfl

theorem strCmp_eq_iff {a b : Str} : strCmp a b = .eq ↔ a = b := by
  induction a generalizing b with
  | nil => cases b <;> simp [strCmp]
  | cons x xs ih =>
    cases b with
    | nil => simp [strCmp]
    | cons y ys =>
      simp only [strCmp]
      rcases h : chCmp x y with _ | _ | _
      · simp only [reduceCtorEq, false_iff]
        intro he
        rw [List.cons.injEq] at he
        rw [he.1, chCmp_eq_iff.mpr rfl] at h
        exact absurd h (by decide)
      · rw [ih, chCmp_eq_iff.mp h]
        simp
      · simp only [reduceCtorEq, false_iff]
        intro he
        rw [List.cons.injEq] at he
        rw [he.1, chCmp_eq_iff.mpr rfl] at h
        exact absurd h (by decide)

theorem strCmp_le_trans {a b c : Str} :
    strCmp a b ≠ .gt → strCmp b c ≠ .gt → strCmp a c ≠ .gt := by
  induction a generalizing b c with
  | nil =>
    intro _ _
    cases c <;> simp [strCmp]
  | cons x xs ih =>
    intro h1 h2
    cases b with
    | nil => simp [strCmp] at h1
    | cons y ys =>
      cases c with
      | nil => simp [strCmp] at h2
      | cons z zs =>
        simp only [strCmp] at h1 h2 ⊢
        rcases hxy : chCmp x y with _ | _ | _ <;> rw [hxy] at h1
        · -- x < y
          rcases hyz : chCmp y z with _ | _ | _ <;> rw [hyz] at h2
          · have : chCmp x z = .lt := by
              unfold chCmp at *
              rw [Nat.compare_eq_lt] at hxy hyz ⊢
              exact Nat.lt_trans hxy hyz
            rw [this]; simp
          · have heq : y.toNat = z.toNat := Nat.compare_eq_eq.mp hyz
            have : chCmp x z = .lt := by
              unfold chCmp at *
              rw [← heq]; exact hxy
            rw [this]; simp
          · exact absurd rfl h2
        · -- x = y
          have heq : x.toNat = y.toNat := Nat.compare_eq_eq.mp hxy
          have hc : chCmp x z = chCmp y z := by unfold chCmp; rw [heq]
          rcases hyz : chCmp y z with _ | _ | _ <;> rw [hyz] at h2
          · rw [hc, hyz]; simp
          · rw [hc, hyz]
            exact ih h1 h2
          · exact absurd rfl h2
        · exact absurd rfl h1

instance : Batteries.OrientedCmp strCmp := ⟨strCmp_swap⟩
instance : Batteries.TransCmp strCmp := ⟨strCmp_le_trans⟩

/-- Embeds `enum Segment` from `src/version.rs`: a version segment is numeric
(u64 in the source), textual, or the reserved platform/prerelease kind. -/
inductive Segment where
  | numeric (n : Nat)
  | text (s : Str)
  | prerelease (s : Str)
  deriving DecidableEq, Repr

/-- Embeds `impl PartialOrd for Segment` from `src/version.rs` (the nine match
arms, in source order). -/
def segCmp : Segment → Segment → Ordering
  | .numeric a, .numeric b => compare a b
  | .numeric _, .text _ => .gt
  | .numeric _, .prerelease _ => .gt
  | .text _, .numeric _ => .lt
  | .text a, .text b => strCmp a b
  | .text a, .prerelease b => strCmp a b
  | .prerelease _, .numeric _ => .lt
  | .prerelease a, .text b => strCmp a b
  | .prerelease a, .prerelease b => strCmp a b

theorem segCmp_swap (a b : Segment) : (segCmp a b).swap = segCmp b a := by
  cases a <;> cases b <;>
    simp only [segCmp] <;>
    first
      | rfl
      | exact Nat.compare_swap ..
      | exact strCmp_swap ..

theorem natCmp_le_trans {a b c : Nat} (h1 : compare a b ≠ .gt) (h2 : compare b c ≠ .gt) :
    compare a c ≠ .gt := by
  rw [Nat.compare_ne_gt] at h1 h2 ⊢
  omega

theorem segCmp_le_trans {a b c : Segment} :
    segCmp a b ≠ .gt → segCmp b c ≠ .gt → segCmp a c ≠ .gt := by
  cases a <;> cases b <;> cases c <;>
    simp only [segCmp] <;>
    intro h1 h2 <;>
    first
      | exact h1
      | exact h2
      | decide
      | exact absurd rfl h1
      | exact absurd rfl h2
      | exact natCmp_le_trans h1 h2
      | exact strCmp_le_trans h1 h2

instance : Batteries.OrientedCmp segCmp := ⟨segCmp_swap⟩
instance : Batteries.TransCmp segCmp := ⟨segCmp_le_trans⟩

/-- A segment is of the reserved `Prerelease` kind. -/
def Segment.isPre : Segment → Bool
  | .prerelease _ => true
  | _ => false

/-- Under the source invariant that `Prerelease` never appears in the main
segment list, segment comparison is equality-reflecting. -/
theorem segCmp_eq_iff {a b : Segment} (ha : a.isPre = false) (hb : b.isPre = false) :
    segCmp a b = .eq ↔ a = b := by
  cases a <;> cases b <;> simp_all [segCmp, Segment.isPre]
  · exact Nat.compare_eq_eq
  · exact strCmp_eq_iff

/-- Embeds `struct RubyVersion` from `src/version.rs`. -/
structure RubyVersion where
  segments : List Segment
  platform_segment : Option Segment
  deriving DecidableEq, Repr

/-- One pass of the comparison loop in `impl PartialOrd for RubyVersion`
(`src/version.rs`): position-wise segment comparison of two lists of equal
length, first difference wins. -/
def cmpSame : List Segment → List Segment → Ordering
  | a :: as, b :: bs =>
    match segCmp a b with
    | .eq => cmpSame as bs
    | o => o
  | _, _ => .eq

/-- Right-pad a segment list with `Numeric(0)` up to length `n`
(`.get(i).unwrap_or(&Segment::Numeric(0))` in the source loop). -/
def padList (l : List Segment) (n : Nat) : List Segment :=
  l ++ List.replicate (n - l.length) (Segment.numeric 0)

/-- Embeds `impl PartialOrd for RubyVersion` from `src/version.rs`: the loop over
`0..max_len` comparing `get(i).unwrap_or(&Numeric(0))` is exactly the
position-wise comparison of the two lists right-padded to the common
length. The platform segment is ignored. -/
def lexPad (a b : List Segment) : Ordering :=
  cmpSame (padList a (max a.length b.length)) (padList b (max a.length b.length))

/-- Embeds `RubyVersion::cmp`. -/
def vcmp (a b : RubyVersion) : Ordering := lexPad a.segments b.segments

theorem cmpSame_swap (a : List Segment) : ∀ b, (cmpSame a b).swap = cmpSame b a := by
  induction a with
  | nil => intro b; cases b <;> rfl
  | cons x xs ih =>
    intro b
    cases b with
    | nil => rfl
    | cons y ys =>
      simp only [cmpSame]
      rw [← segCmp_swap x y]
      cases segCmp x y
      · rfl
      · exact ih ys
      · rfl

theorem lexPad_swap (a b : List Segment) : (lexPad a b).swap = lexPad b a := by
  unfold lexPad
  rw [Nat.max_comm b.length a.length]
  exact cmpSame_swap ..

theorem padList_length {l : List Segment} {n : Nat} (h : l.length ≤ n) :
    (padList l n).length = n := by
  simp [padList]
  omega

theorem padList_succ {l : List Segment} {n : Nat} (h : l.length ≤ n) :
    padList l (n + 1) = padList l n ++ [Segment.numeric 0] := by
  unfold padList
  rw [List.append_assoc]
  have : n + 1 - l.length = (n - l.length) + 1 := by omega
  rw [this, List.replicate_succ']

theorem cmpSame_append_zero {a b : List Segment} (h : a.length = b.length) :
    cmpSame (a ++ [Segment.numeric 0]) (b ++ [Segment.numeric 0]) = cmpSame a b := by
  induction a generalizing b with
  | nil =>
    cases b with
    | nil => rfl
    | cons y ys => simp at h
  | cons x xs ih =>
    cases b with
    | nil => simp at h
    | cons y ys =>
      simp only [List.cons_append, cmpSame]
      cases segCmp x y
      · rfl
      · exact ih (by simpa using h)
      · rfl

/-- The padded comparison is unchanged by padding both sides further. -/
theorem lexPad_stable {a b : List Segment} {n : Nat}
    (h : max a.length b.length ≤ n) :
    cmpSame (padList a n) (padList b n) = lexPad a b := by
  induction n with
  | zero =>
    have ha : a = [] := List.eq_nil_of_length_eq_zero (by omega)
    have hb : b = [] := List.eq_nil_of_length_eq_zero (by omega)
    subst ha; subst hb
    rfl
  | succ m ih =>
    rcases Nat.lt_or_ge m (max a.length b.length) with hlt | hge
    · have : m + 1 = max a.length b.length := by omega
      rw [this]
      rfl
    · have ha : a.length ≤ m := le_trans (le_max_left ..) hge
      have hb : b.length ≤ m := le_trans (le_max_right ..) hge
      rw [padList_succ ha, padList_succ hb,
        cmpSame_append_zero ((padList_length ha).trans (padList_length hb).symm)]
      exact ih hge

theorem cmpSame_le_trans : ∀ {a b c : List Segment},
    a.length = b.length → b.length = c.length →
    cmpSame a b ≠ .gt → cmpSame b c ≠ .gt → cmpSame a c ≠ .gt := by
  intro a
  induction a with
  | nil =>
    intro b c hab hbc h1 h2
    cases c <;> simp [cmpSame]
  | cons x xs ih =>
    intro b c hab hbc h1 h2
    cases b with
    | nil => simp at hab
    | cons y ys =>
      cases c with
      | nil => simp at hbc
      | cons z zs =>
        simp only [cmpSame] at h1 h2 ⊢
        rcases hxy : segCmp x y with _ | _ | _ <;> rw [hxy] at h1
        · rcases hyz : segCmp y z with _ | _ | _ <;> rw [hyz] at h2
          · rw [Batteries.TransCmp.lt_trans hxy hyz]
            simp
          · rw [← Batteries.TransCmp.cmp_congr_right hyz, hxy]
            simp
          · exact absurd rfl h2
        · rcases hyz : segCmp y z with _ | _ | _ <;> rw [hyz] at h2
          · rw [Batteries.TransCmp.cmp_congr_left hxy, hyz]
            simp
          · rw [Batteries.TransCmp.cmp_congr_left hxy, hyz]
            exact ih (by simpa using hab) (by simpa using hbc) h1 h2
          · exact absurd rfl h2
        · exact absurd rfl h1

theorem lexPad_le_trans {a b c : List Segment}
    (h1 : lexPad a b ≠ .gt) (h2 : lexPad b c ≠ .gt) : lexPad a c ≠ .gt := by
  set n := max a.length (max b.length c.length) with hn
  have hna : a.length ≤ n := le_max_left ..
  have hnb : b.length ≤ n := le_trans (le_max_left ..) (le_max_right ..)
  have hnc : c.length ≤ n := le_trans (le_max_right ..) (le_max_right ..)
  rw [← lexPad_stable (a := a) (b := b) (max_le hna hnb)] at h1
  rw [← lexPad_stable (a := b) (b := c) (max_le hnb hnc)] at h2
  rw [← lexPad_stable (a := a) (b := c) (max_le hna hnc)]
  exact cmpSame_le_trans
    ((padList_length hna).trans (padList_length hnb).symm)
    ((padList_length hnb).trans (padList_length hnc).symm) h1 h2

instance : Batteries.OrientedCmp lexPad := ⟨lexPad_swap⟩
instance : Batteries.TransCmp lexPad := ⟨lexPad_le_trans⟩

instance : Batteries.OrientedCmp vcmp := ⟨fun a b => lexPad_swap a.segments b.segments⟩
instance : Batteries.TransCmp vcmp := ⟨lexPad_le_trans⟩

/-- No segment of the list is of the reserved `Prerelease` kind (the source
invariant for main segment lists). -/
def noPreSegs (l : List Segment) : Bool := l.all (fun s => !s.isPre)

theorem noPreSegs_padList {l : List Segment} {n : Nat} (h : noPreSegs l = true) :
    noPreSegs (padList l n) = true := by
  simp only [noPreSegs, padList, List.all_append, Bool.and_eq_true] at *
  refine ⟨h, ?_⟩
  simp [Segment.isPre]

theorem cmpSame_eq_iff : ∀ {a b : List Segment},
    a.length = b.length → noPreSegs a = true → noPreSegs b = true →
    (cmpSame a b = .eq ↔ a = b) := by
  intro a
  induction a with
  | nil =>
    intro b hl _ _
    cases b with
    | nil => simp [cmpSame]
    | cons y ys => simp at hl
  | cons x xs ih =>
    intro b hl ha hb
    cases b with
    | nil => simp at hl
    | cons y ys =>
      have hx : x.isPre = false := by
        simp [noPreSegs, List.all_cons] at ha
        simpa using ha.1
      have hy : y.isPre = false := by
        simp [noPreSegs, List.all_cons] at hb
        simpa using hb.1
      have hxs : noPreSegs xs = true := by
        simp [noPreSegs, List.all_cons] at ha ⊢
        exact ha.2
      have hys : noPreSegs ys = true := by
        simp [noPreSegs, List.all_cons] at hb ⊢
        exact hb.2
      simp only [cmpSame]
      rcases h : segCmp x y with _ | _ | _
      · constructor
        · intro he
          exact absurd (show Ordering.lt = Ordering.eq from he) (by decide)
        · intro he
          rw [List.cons.injEq] at he
          rw [he.1, (segCmp_eq_iff hy hy).mpr rfl] at h
          exact absurd h (by decide)
      · rw [segCmp_eq_iff hx hy] at h
        rw [ih (by simpa using hl) hxs hys, h]
        simp
      · constructor
        · intro he
          exact absurd (show Ordering.gt = Ordering.eq from he) (by decide)
        · intro he
          rw [List.cons.injEq] at he
          rw [he.1, (segCmp_eq_iff hy hy).mpr rfl] at h
          exact absurd h (by decide)

/-- Version comparison yields `eq` exactly on equality of the segment lists
right-padded with `Numeric(0)` to the common length. -/
theorem lexPad_eq_iff_padList {a b : List Segment}
    (ha : noPreSegs a = true) (hb : noPreSegs b = true) :
    lexPad a b = .eq ↔
      padList a (max a.length b.length) = padList b (max a.length b.length) := by
  unfold lexPad
  have hna : a.length ≤ max a.length b.length := le_max_left ..
  have hnb : b.length ≤ max a.length b.length := le_max_right ..
  exact cmpSame_eq_iff
    ((padList_length hna).trans (padList_length hnb).symm)
    (noPreSegs_padList ha) (noPreSegs_padList hb)

/-! ### String helpers mirroring the Rust `str` operations used by the source -/

/-- Rust `str::split(c)` for a character pattern. -/
def splitOnChar (sep : Char) : Str → List Str
  | [] => [[]]
  | c :: cs =>
    match splitOnChar sep cs with
    | [] => if c = sep then [[], []] else [[c]]
    | h :: t => if c = sep then [] :: h :: t else (c :: h) :: t

/-- Rust `str::splitn(2, c)`: the part before the first occurrence of the
separator, and (when the separator occurs) the untouched remainder. -/
def splitn2Char (sep : Char) (s : Str) : Str × Option Str :=
  match splitOnChar sep s with
  | [] => ([], none)
  | [x] => (x, none)
  | x :: rest => (x, some (List.intercalate [sep] rest))

/-- Rust `str::trim` (whitespace on both ends). -/
def trimStr (s : Str) : Str :=
  ((s.dropWhile Char.isWhitespace).reverse.dropWhile Char.isWhitespace).reverse

/-- Loop body for `dropPrefixRep`: strip the pattern from the front while
it is a prefix, for at most `fuel` rounds. -/
def dropPrefixRepGo (pat : Str) : Nat → Str → Str
  | 0, s => s
  | fuel + 1, s =>
    if pat ≠ [] ∧ pat.isPrefixOf s then dropPrefixRepGo pat fuel (s.drop pat.length)
    else s

/-- Rust `str::trim_start_matches(pat)` for a string pattern: repeatedly
strip the pattern from the front. Each successful strip of the non-empty
pattern shortens the string, so `s.length` rounds of fuel make the bounded
loop agree with the unbounded one. -/
def dropPrefixRep (pat : Str) (s : Str) : Str :=
  dropPrefixRepGo pat s.length s

/-- Digit-string value (base 10). -/
def digitsVal (s : Str) : Nat := s.foldl (fun a c => a * 10 + (c.toNat - 48)) 0

/-- Rust `str::parse::<u64>()`: optional leading `+`, then a nonempty digit
run whose value fits in 64 bits; anything else is a parse error. -/
def parseU64 (s : Str) : Option Nat :=
  let s2 := match s with
    | '+' :: rest => rest
    | _ => s
  if s2 ≠ [] ∧ s2.all Char.isDigit then
    let n := digitsVal s2
    if n < 2 ^ 64 then some n else none
  else none

/-! ### `RubyVersion` operations from `src/version.rs` -/

/-- Embeds `RubyVersion::new`. -/
def RubyVersion.new (major minor patch : Nat) : RubyVersion :=
  { segments := [.numeric major, .numeric minor, .numeric patch]
    platform_segment := none }

/-- Embeds `RubyVersion::is_prerelease`: some segment contains letters. -/
def RubyVersion.is_prerelease (v : RubyVersion) : Bool :=
  v.segments.any (fun s => match s with | .text _ => true | _ => false)

/-- Embeds `RubyVersion::is_platform`. -/
def RubyVersion.is_platform (v : RubyVersion) : Bool :=
  v.platform_segment.isSome

/-- Embeds `RubyVersion::parse` from `src/version.rs`: drop build metadata after
`+`, split once on `-` into main/platform, split main on `.`; in each part
the leading ASCII-digit run becomes `Numeric` (invalid/overflowing parses
fall back to 0) and the non-empty remainder becomes `Text`. -/
def RubyVersion.parse (text : Str) : RubyVersion :=
  let text1 := (splitOnChar '+' text).headD []
  let mp := splitn2Char '-' text1
  let segments := (splitOnChar '.' mp.1).foldl (fun acc part =>
    let digits := part.takeWhile Char.isDigit
    let letters := part.dropWhile Char.isDigit
    let acc := if digits ≠ [] then acc ++ [Segment.numeric ((parseU64 digits).getD 0)] else acc
    if letters ≠ [] then acc ++ [Segment.text letters] else acc) []
  { segments
    platform_segment := mp.2.map (fun p => Segment.prerelease p) }

/-- Decimal rendering of a natural number. -/
def natToStr (n : Nat) : Str := Nat.toDigits 10 n

/-- Embeds `impl Display for RubyVersion`: dot-join the numeric/text segments (a
`Prerelease` segment in the main list renders as nothing, but still
occupies an index), then append `-<platform>` when the platform segment is
present. -/
def RubyVersion.toStr (v : RubyVersion) : Str :=
  let main := v.segments.enum.foldl (fun text is =>
    match is.2 with
    | .numeric n => (if is.1 > 0 then text ++ ['.'] else text) ++ natToStr n
    | .text s => (if is.1 > 0 then text ++ ['.'] else text) ++ s
    | .prerelease _ => text) []
  match v.platform_segment with
  | some (.prerelease p) => main ++ ['-'] ++ p
  | _ => main

/-- All characters are ASCII digits (true for the empty string, as for
Rust's `chars().all`). -/
def allDigits (s : Str) : Bool := s.all Char.isDigit

/-- Embeds `RubyVersion::bump` from `src/version.rs`: render to text, split on
`.`, drop trailing non-numeric segments, drop one more segment if at least
two remain, increment the last (parse failures count as 0; the increment
wraps at 2^64 as the release-mode u64 addition does) or produce `"1"` if
none remain, re-join and re-parse. -/
def RubyVersion.bump (v : RubyVersion) : RubyVersion :=
  let raw := v.toStr
  let segments := splitOnChar '.' raw
  let segments := ((segments.reverse.dropWhile (fun s => !allDigits s))).reverse
  let segments := if segments.length > 1 then segments.dropLast else segments
  let segments := match segments.getLast? with
    | some last => segments.dropLast ++ [natToStr (((parseU64 last).getD 0 + 1) % 2 ^ 64)]
    | none => [['1']]
  RubyVersion.parse (List.intercalate ['.'] segments)

/-! ### Version sets

The version-set type used by `src/version.rs` is `pubgrub::Ranges`, an
external crate that is not part of this repository's sources. -/

/-- Modelled from the spec: a lower bound of an interval of the external
`pubgrub::Ranges` type — "The range is a union of half-open intervals over
the total order above" (§3), with unbounded, inclusive and exclusive
endpoints. -/
inductive LB where
  | unbounded
  | included (v : RubyVersion)
  | excluded (v : RubyVersion)
  deriving DecidableEq, Repr

/-- Modelled from the spec: an upper bound of an interval of the external
`pubgrub::Ranges` type (§3). -/
inductive UB where
  | unbounded
  | included (v : RubyVersion)
  | excluded (v : RubyVersion)
  deriving DecidableEq, Repr

/-- Modelled from the spec: the external `pubgrub::Ranges<RubyVersion>`
type, "a union of half-open intervals over the total order" (§3),
represented as a list of intervals. -/
abbrev Ranges := List (LB × UB)

/-- A version satisfies a lower bound. -/
def lbSat : LB → RubyVersion → Bool
  | .unbounded, _ => true
  | .included v, w => vcmp v w ≠ .gt
  | .excluded v, w => vcmp v w = .lt

/-- A version satisfies an upper bound. -/
def ubSat : UB → RubyVersion → Bool
  | .unbounded, _ => true
  | .included v, w => vcmp w v ≠ .gt
  | .excluded v, w => vcmp w v = .lt

/-- Modelled from the spec: `Ranges::contains` — membership in the union
of intervals (§3 "containment"). -/
def Ranges.contains (r : Ranges) (w : RubyVersion) : Bool :=
  r.any (fun i => lbSat i.1 w && ubSat i.2 w)

/-- Modelled from the spec: `Ranges::empty` (§3). -/
def Ranges.empty : Ranges := []

/-- Modelled from the spec: `Ranges::full` (§3). -/
def Ranges.full : Ranges := [(.unbounded, .unbounded)]

/-- Modelled from the spec: `Ranges::singleton(v)` (§3). -/
def Ranges.singleton (v : RubyVersion) : Ranges := [(.included v, .included v)]

/-- Modelled from the spec: `Ranges::higher_than(v)` — versions `≥ v`. -/
def Ranges.higherThan (v : RubyVersion) : Ranges := [(.included v, .unbounded)]

/-- Modelled from the spec: `Ranges::strictly_higher_than(v)` — `> v`. -/
def Ranges.strictlyHigherThan (v : RubyVersion) : Ranges := [(.excluded v, .unbounded)]

/-- Modelled from the spec: `Ranges::lower_than(v)` — versions `≤ v`. -/
def Ranges.lowerThan (v : RubyVersion) : Ranges := [(.unbounded, .included v)]

/-- Modelled from the spec: `Ranges::strictly_lower_than(v)` — `< v`. -/
def Ranges.strictlyLowerThan (v : RubyVersion) : Ranges := [(.unbounded, .excluded v)]

/-- Modelled from the spec: `Ranges::between(lo, hi)` — the half-open
interval `[lo, hi)` ("lower inclusive, upper exclusive", §4.1). -/
def Ranges.between (lo hi : RubyVersion) : Ranges := [(.included lo, .excluded hi)]

/-- The tighter of two lower bounds. -/
def lbMax : LB → LB → LB
  | .unbounded, b => b
  | a, .unbounded => a
  | .included v, .included w => if vcmp v w = .lt then .included w else .included v
  | .included v, .excluded w => if vcmp v w = .gt then .included v else .excluded w
  | .excluded v, .included w => if vcmp w v = .gt then .included w else .excluded v
  | .excluded v, .excluded w => if vcmp v w = .lt then .excluded w else .excluded v

/-- The tighter of two upper bounds. -/
def ubMin : UB → UB → UB
  | .unbounded, b => b
  | a, .unbounded => a
  | .included v, .included w => if vcmp w v = .lt then .included w else .included v
  | .included v, .excluded w => if vcmp v w = .lt then .included v else .excluded w
  | .excluded v, .included w => if vcmp w v = .lt then .included w else .excluded v
  | .excluded v, .excluded w => if vcmp w v = .lt then .excluded w else .excluded v

/-- Modelled from the spec: `Ranges::union` (§3) — the union of the two
interval unions. -/
def Ranges.union (r1 r2 : Ranges) : Ranges := r1 ++ r2

/-- Modelled from the spec: `Ranges::intersection` (§3) — pairwise
intersection of the intervals. -/
def Ranges.intersection (r1 r2 : Ranges) : Ranges :=
  r1.flatMap (fun a => r2.map (fun b => (lbMax a.1 b.1, ubMin a.2 b.2)))

/-- Embeds `struct RichReq` from `src/version.rs`: a range plus the pre-release
admission flag. -/
structure RichReq where
  range : Ranges
  allow_pre : Bool
  deriving DecidableEq, Repr

/-- Embeds `RichReq::empty` (`impl VersionSet for RichReq`, `src/version.rs`). -/
def RichReq.empty : RichReq := { range := Ranges.empty, allow_pre := false }

/-- Embeds `RichReq::full` (`src/version.rs`): note `allow_pre` is `true`. -/
def RichReq.full : RichReq := { range := Ranges.full, allow_pre := true }

/-- Embeds `RichReq::singleton` (`src/version.rs`). -/
def RichReq.singleton (v : RubyVersion) : RichReq :=
  { range := Ranges.singleton v, allow_pre := v.is_prerelease }

/-- Embeds `RichReq::intersection` (`src/version.rs`): ranges intersect,
`allow_pre` flags conjoin. -/
def RichReq.intersection (a b : RichReq) : RichReq :=
  { range := a.range.intersection b.range, allow_pre := a.allow_pre && b.allow_pre }

/-- Embeds `RichReq::union` (`src/version.rs`). -/
def RichReq.union (a b : RichReq) : RichReq :=
  { range := a.range.union b.range, allow_pre := a.allow_pre || b.allow_pre }

/-- Embeds `RichReq::contains` (`src/version.rs`): a pre-release version is
rejected unless `allow_pre` is set; otherwise delegate to the range. -/
def RichReq.contains (r : RichReq) (v : RubyVersion) : Bool :=
  if v.is_prerelease && !r.allow_pre then false
  else r.range.contains v

/-! ### Requirement parsing (`parse_req`, `src/version.rs`) -/

/-- The operator-detection `if`-chain of `parse_req` (`src/version.rs`),
in source order; the final arm is the default `"="`, whose version text is
the clause with all leading `=` characters stripped. -/
def detectOp (s : Str) : Str × Str :=
  if "~>".data.isPrefixOf s then ("~>".data, trimStr (dropPrefixRep "~>".data s))
  else if "^".data.isPrefixOf s then ("^".data, trimStr (dropPrefixRep "^".data s))
  else if ">=".data.isPrefixOf s then (">=".data, trimStr (dropPrefixRep ">=".data s))
  else if "<=".data.isPrefixOf s then ("<=".data, trimStr (dropPrefixRep "<=".data s))
  else if ">".data.isPrefixOf s then (">".data, trimStr (dropPrefixRep ">".data s))
  else if "<".data.isPrefixOf s then ("<".data, trimStr (dropPrefixRep "<".data s))
  else if "!=".data.isPrefixOf s then ("!=".data, trimStr (dropPrefixRep "!=".data s))
  else ("=".data, trimStr (s.dropWhile (fun c => c = '=')))

/-- The clause starts with one of the seven recognized operator tokens. -/
def hasKnownOp (s : Str) : Bool :=
  "~>".data.isPrefixOf s || "^".data.isPrefixOf s || ">=".data.isPrefixOf s ||
    "<=".data.isPrefixOf s || ">".data.isPrefixOf s || "<".data.isPrefixOf s ||
    "!=".data.isPrefixOf s

/-- The upper end of the pessimistic range from the `"~>"` arm of
`parse_req` (`src/version.rs`): `bump` for three or more segments,
otherwise increment the leading numeric segment (wrapping u64 addition)
and truncate to it; `none` models the panic of `next.segments[0]` on an
empty segment list. -/
def pessimisticUpper (rv : RubyVersion) : Option RubyVersion :=
  if rv.segments.length > 2 then some rv.bump
  else
    match rv.segments with
    | [] => none
    | s0 :: _ =>
      let s0 := match s0 with
        | .numeric maj => Segment.numeric ((maj + 1) % 2 ^ 64)
        | s => s
      some { rv with segments := [s0] }

/-- The fallback arm of the `"^"` match in `parse_req` (`src/version.rs`):
when the list has a second segment and it is numeric, increment it. -/
def caretFallback (rv : RubyVersion) : RubyVersion :=
  match rv.segments with
  | s0 :: .numeric min :: rest2 =>
    { rv with segments := s0 :: .numeric ((min + 1) % 2 ^ 64) :: rest2 }
  | _ => rv

/-- The upper end of the caret range from the `"^"` arm of `parse_req`
(`src/version.rs`): increment the leading numeric segment when it is
positive, otherwise fall back to incrementing the second segment. -/
def caretUpper (rv : RubyVersion) : RubyVersion :=
  match rv.segments with
  | .numeric maj :: rest =>
    if maj > 0 then { rv with segments := .numeric ((maj + 1) % 2 ^ 64) :: rest }
    else caretFallback rv
  | _ => caretFallback rv

/-- The `match op` block of `parse_req` (`src/version.rs`) producing the
per-clause range; `none` models the panic in the `"~>"` arm. -/
def clauseRange (op : Str) (rv : RubyVersion) : Option Ranges :=
  if op = "=".data then some (Ranges.singleton rv)
  else if op = ">".data then some (Ranges.strictlyHigherThan rv)
  else if op = ">=".data then some (Ranges.higherThan rv)
  else if op = "<".data then some (Ranges.strictlyLowerThan rv)
  else if op = "<=".data then some (Ranges.lowerThan rv)
  else if op = "!=".data then
    some ((Ranges.strictlyLowerThan rv).union (Ranges.strictlyHigherThan rv))
  else if op = "~>".data then
    (pessimisticUpper rv).map (fun next => Ranges.between rv next)
  else if op = "^".data then
    some ((Ranges.higherThan rv).intersection (Ranges.strictlyLowerThan (caretUpper rv)))
  else some Ranges.full

/-- The clause loop of `parse_req` (`src/version.rs`): each trimmed clause
is recorded in `req_str` first; a literal `*` clause is skipped; otherwise
the detected operator's range is intersected into the running set together
with its `allow_pre` contribution (`op == "=" && rv.is_prerelease()`). -/
def parseClauses : List Str → RichReq → List Str → Option (RichReq × List Str)
  | [], set, req_str => some (set, req_str)
  | part :: rest, set, req_str =>
    let s := trimStr part
    let req_str := req_str ++ [s]
    if s = "*".data then parseClauses rest set req_str
    else
      let ov := detectOp s
      let rv := RubyVersion.parse ov.2
      match clauseRange ov.1 rv with
      | none => none
      | some rng =>
        parseClauses rest
          (set.intersection { range := rng, allow_pre := ov.1 = "=".data && rv.is_prerelease })
          req_str

/-- Embeds `parse_req` from `src/version.rs`: the whole-text `*` shortcut returns
the full set (whose `allow_pre` is `true`) with an empty clause list;
otherwise the text is split on the separator and the clauses are folded
together starting from the full set. The separator is a one-character
token (`','` or `'&'` at every call site of the source). `none` models the
panic reachable in the `"~>"` arm. -/
def parse_req (text : Str) (separator : Char) : Option (RichReq × List Str) :=
  if trimStr text = "*".data then some (RichReq.full, [])
  else parseClauses (splitOnChar separator text) RichReq.full []

/-! ### Compact-index info parsing (`CompactIndexClient::info`,
`src/compact_index_client.rs`) -/

/-- Embeds `struct GemDependency` from `src/compact_index_client.rs`. -/
structure GemDependency where
  name : Str
  requirement : RichReq
  requirement_str : List Str
  deriving DecidableEq, Repr

/-- Embeds `struct GemVersion` from `src/compact_index_client.rs` (the checksum
is always set to `None` by the parser). -/
structure GemVersion where
  name : Str
  version : RubyVersion
  checksum : Option Str
  dependencies : List GemDependency
  deriving DecidableEq, Repr

/-- The dependency loop of `CompactIndexClient::info`
(`src/compact_index_client.rs`): each comma-separated entry is trimmed,
empty entries are skipped, and an entry with a colon becomes a dependency
whose requirement text (after the first colon, trimmed) is parsed with
separator `&`. `none` models the panic reachable inside `parse_req`. -/
def parseDeps : List Str → Option (List GemDependency)
  | [] => some []
  | e :: rest =>
    let e := trimStr e
    if e = [] then parseDeps rest
    else
      match e.findIdx? (fun c => c = ':') with
      | none => parseDeps rest
      | some idx =>
        let name := e.take idx
        let req_text := trimStr (e.drop (idx + 1))
        match parse_req req_text '&' with
        | none => none
        | some rr =>
          (parseDeps rest).map (fun ds =>
            { name := name, requirement := rr.1, requirement_str := rr.2 } :: ds)

/-- The line loop of `CompactIndexClient::info`
(`src/compact_index_client.rs`): lines starting with `---` are skipped;
the part before the first `|` is split once on a space into version text
and dependency text; platform-tagged versions are skipped; the remaining
lines produce `GemVersion` entries. `none` models the panic reachable
inside `parse_req`. -/
def parseInfoLines (gem_name : Str) : List Str → Option (List GemVersion)
  | [] => some []
  | raw :: rest =>
    if "---".data.isPrefixOf raw then parseInfoLines gem_name rest
    else
      let line := (splitOnChar '|' raw).headD raw
      let ps := splitn2Char ' ' line
      let rv := RubyVersion.parse ps.1
      if rv.is_platform then parseInfoLines gem_name rest
      else
        match parseDeps (splitOnChar ',' (ps.2.getD [])) with
        | none => none
        | some dependencies =>
          (parseInfoLines gem_name rest).map (fun vs =>
            { name := gem_name, version := rv, checksum := none
              dependencies := dependencies } :: vs)

/-! ### Cache update (`CompactIndexClient::update_cache` and
`CompactIndexClient::process_response`, `src/compact_index_client.rs`)

The filesystem is modelled as a partial map from paths (strings) to file
contents; HTTP bodies and file contents are character lists standing for
byte strings. -/

/-- Rust slice indexing `&s[i..]`: defined only when `i ≤ s.len()`,
otherwise the access panics (modelled by `none`). -/
def sliceFrom (s : Str) (i : Nat) : Option Str :=
  if i ≤ s.length then some (s.drop i) else none

/-- Strip one trailing carriage return, as Rust `str::lines` does. -/
def stripCR (l : Str) : Str :=
  if l.getLast? = some '\r' then l.dropLast else l

/-- Rust `str::lines`: split on `\n`, drop the final empty piece produced
by a trailing newline, and strip a trailing `\r` from each line. -/
def linesOf (s : Str) : List Str :=
  let parts := splitOnChar '\n' s
  let parts := if parts.getLast? = some [] then parts.dropLast else parts
  parts.map stripCR

/-- Embeds `Path::with_extension("etag")`: in the final path component, replace
the extension (the part after the last `.`, which does not count when the
only `.` is the leading character of the component) with `etag`. -/
def withExtEtag (p : Str) : Str :=
  let segs := splitOnChar '/' p
  let name := segs.getLastD []
  let stem :=
    match name.reverse.findIdx? (fun c => c = '.') with
    | none => name
    | some i =>
      let keep := name.length - i - 1
      if keep = 0 then name else name.take keep
  List.intercalate ['/'] (segs.dropLast ++ [stem ++ ".etag".data])

/-- The conditional-request headers computed by
`CompactIndexClient::update_cache` (`src/compact_index_client.rs`) from
the state `fs` of the filesystem, as the pair
(`If-None-Match` value, `Range` value). Both are gated on the existence of
a file at the `etag_path` argument; the `If-None-Match` value is the
content of `etag_path` with its extension replaced by `etag`
(`read_etag`), and the `Range` value is `bytes=<len-1>-` where `len` is
the size of the file at `etag_path` itself, sent only when that size is
positive. -/
def updateCacheHeaders (fs : Str → Option Str) (etag_path : Str) :
    Option Str × Option Str :=
  if (fs etag_path).isSome then
    let inm := fs (withExtEtag etag_path)
    let rng :=
      match fs etag_path with
      | some data =>
        if data.length > 0 then
          some ("bytes=".data ++ natToStr (data.length - 1) ++ "-".data)
        else none
      | none => none
    (inm, rng)
  else (none, none)

/-- The `versions` endpoint calls `update_cache(url, path, path)` with
`path` the cached data file `<cache_dir>/versions`
(`ensure_versions_fresh`, `src/compact_index_client.rs`). -/
def versionsUpdateHeaders (fs : Str → Option Str) (cache_dir : Str) :
    Option Str × Option Str :=
  updateCacheHeaders fs (cache_dir ++ "/versions".data)

/-- The `info/<gem>` endpoint calls `update_cache` with the extensionless
`<cache_dir>/info-etags/<gem>` as its `etag_path`
(`CompactIndexClient::info`, `src/compact_index_client.rs`). -/
def infoUpdateHeaders (fs : Str → Option Str) (cache_dir gem : Str) :
    Option Str × Option Str :=
  updateCacheHeaders fs (cache_dir ++ "/info-etags/".data ++ gem)

/-- The effect of `CompactIndexClient::process_response`
(`src/compact_index_client.rs`) on the content of the cached file: on a
partial (206) response with an existing cache file, append the body minus
its first byte (`&body[1..]`, whose panic on an empty body is modelled by
the outer `none`); otherwise, if the body is just a `---` line, leave the
file untouched; otherwise replace the file with the body. The inner
option is the resulting file content (`none` when no file exists). -/
def processResponseCache ( is_partial : Bool) (cached : Option Str) (body : Str) :
    Option (Option Str) :=
  if is_partial && cached.isSome then
    match sliceFrom body 1 with
    | none => none
    | some tail => some (some (cached.getD [] ++ tail))
  else
    if linesOf body = ["---".data] then some cached
    else some (some body)

/-! ### Lockfile writer (`write_lockfile`, `src/gemfilelock.rs`) -/

/-- Stable insertion into a list sorted by `le` (equal keys keep their
relative order, as with `Vec::sort_by`). -/
def insOrd (le : α → α → Bool) (x : α) : List α → List α
  | [] => [x]
  | y :: ys => if le y x then y :: insOrd le x ys else x :: y :: ys

/-- Stable sort by `le`, modelling `Vec::sort_by`. -/
def sortOrd (le : α → α → Bool) : List α → List α
  | [] => []
  | x :: xs => insOrd le x (sortOrd le xs)

/-- Embeds `a.0.cmp(&b.0)` as a boolean "less or equal" on name-keyed pairs. -/
def byName (a b : Str × β) : Bool := strCmp a.1 b.1 ≠ .gt

/-- One dependency line of the `specs:` section (`write_lockfile`,
`src/gemfilelock.rs`): the stored requirement strings are reversed, and
the parenthesized suffix is emitted only when every (reversed) clause
differs from `">= 0"`. -/
def specDepLine (dg : Str) (dr : List Str) : Str :=
  let dr := dr.reverse
  "      ".data ++ dg ++
    (if dr.all (fun r => r ≠ ">= 0".data) then
      " (".data ++ List.intercalate ", ".data dr ++ ")".data
    else []) ++ "\n".data

/-- One dependency line of the `DEPENDENCIES` section (`write_lockfile`,
`src/gemfilelock.rs`): same emission rule, without the reversal. -/
def rootDepLine (dg : Str) (dr : List Str) : Str :=
  "  ".data ++ dg ++
    (if dr.all (fun r => r ≠ ">= 0".data) then
      " (".data ++ List.intercalate ", ".data dr ++ ")".data
    else []) ++ "\n".data

/-- The lock-meta side table of the resolver
(`Resolver::get_dependencies_str`, `src/resolver.rs`), as an association
list from (package, version) to the per-dependency raw requirement-string
lists. -/
abbrev LockMeta := List ((Str × RubyVersion) × List (Str × List Str))

/-- Embeds `write_lockfile` from `src/gemfilelock.rs`, as the text it writes:
header, name-sorted specs (skipping the synthetic `root`) each followed by
its name-sorted dependency lines, the `PLATFORMS` block, the name-sorted
`DEPENDENCIES` of `root` at version 0.0.0, and the `BUNDLED WITH`
trailer. -/
def write_lockfile (solutions : List (Str × RubyVersion)) (lock_meta : LockMeta) : Str :=
  let solutions := sortOrd byName solutions
  let specs := solutions.foldl (fun acc pv =>
    if pv.1 = "root".data then acc
    else
      acc ++ "    ".data ++ pv.1 ++ " (".data ++ pv.2.toStr ++ ")\n".data ++
        (match lock_meta.lookup pv with
         | some deps =>
           (sortOrd byName deps).foldl (fun a d => a ++ specDepLine d.1 d.2) []
         | none => [])) []
  let root_deps :=
    match lock_meta.lookup ("root".data, RubyVersion.new 0 0 0) with
    | some deps => (sortOrd byName deps).foldl (fun a d => a ++ rootDepLine d.1 d.2) []
    | none => []
  "GEM\n  remote: https://rubygems.org/\n  specs:\n".data ++ specs ++
    "\nPLATFORMS\n  ruby\n\nDEPENDENCIES\n".data ++ root_deps ++
    "\nBUNDLED WITH\n   2.5.22\n".data

/-! ### Resolver choose-version policy (`Resolver::resolve`,
`src/resolver.rs`)

The solver itself is the external `pubgrub` crate
(`pubgrub::resolve` over `OfflineDependencyProvider`), not part of this
repository's sources; its choose-version policy is modelled from the
spec. -/

/-- The universe built by `Resolver::add_dependencies`
(`src/resolver.rs`): a list of (package, version, dependency-constraints)
triples. -/
abbrev Universe := List (Str × RubyVersion × List (Str × RichReq))

/-- All versions of a package in the universe. -/
def versionsOf (univ : Universe) (p : Str) : List RubyVersion :=
  (univ.filter (fun e => e.1 = p)).map (fun e => e.2.1)

/-- The dependencies recorded for a (package, version). -/
def depsOf (univ : Universe) (p : Str) (v : RubyVersion) : List (Str × RichReq) :=
  match univ.find? (fun e => e.1 = p && e.2.1 = v) with
  | some e => e.2.2
  | none => []

/-- The maximum of a non-empty version list under the total order
(= the first element after sorting in descending order). -/
def pickMax : List RubyVersion → Option RubyVersion
  | [] => none
  | x :: xs => some (xs.foldl (fun m v => if vcmp m v = .lt then v else m) x)

/-- Modelled from the spec: the choose-version policy of the external
solver (§4.3) — "enumerate every version in the universe for `P`, filter
by `R.contains(v)`, sort descending by the total order of §3, and choose
the first", i.e. the newest version the remaining set admits. -/
def chooseVersion (univ : Universe) (p : Str) (r : RichReq) : Option RubyVersion :=
  pickMax ((versionsOf univ p).filter (fun v => r.contains v))

/-- Modelled from the spec: resolution (§4.3) for a conflict-free
universe — the external PubGrub-style solver repeatedly applies the
choose-version policy to the pending dependency constraints discovered
from the root, never needing to backtrack when no conflict arises. The
fuel bounds the recursion. -/
def resolveSteps (univ : Universe) :
    Nat → List (Str × RichReq) → List (Str × RubyVersion) → Option (List (Str × RubyVersion))
  | 0, _, _ => none
  | _ + 1, [], acc => some acc
  | fuel + 1, (name, req) :: rest, acc =>
    if (acc.lookup name).isSome then resolveSteps univ fuel rest acc
    else
      match chooseVersion univ name req with
      | some v => resolveSteps univ fuel (rest ++ depsOf univ name v) (acc ++ [(name, v)])
      | none => none

/-! ### Supporting lemmas for the claims -/

theorem vcmp_refl (v : RubyVersion) : vcmp v v = .eq :=
  Batteries.OrientedCmp.cmp_refl

theorem vcmp_eq_gt {a b : RubyVersion} : vcmp a b = .gt ↔ vcmp b a = .lt :=
  Batteries.OrientedCmp.cmp_eq_gt

/-! ### Claim theorems -/

/-- C8: the version ordering is total and antisymmetric: for all
versions `a` and `b` (whose main segment lists respect the source
invariant of containing no reserved `Prerelease` segment), exactly one of
`a < b`, `a = b`, `a > b` holds, where equality of versions is
segment-by-segment equality modulo right-padding the shorter segment list
with `Numeric(0)`. -/
theorem C8_order_trichotomy (a b : RubyVersion)
    (ha : noPreSegs a.segments = true) (hb : noPreSegs b.segments = true) :
    (vcmp a b = .lt ∧
        padList a.segments (max a.segments.length b.segments.length) ≠
          padList b.segments (max a.segments.length b.segments.length) ∧
        vcmp a b ≠ .gt) ∨
      (vcmp a b ≠ .lt ∧
        padList a.segments (max a.segments.length b.segments.length) =
          padList b.segments (max a.segments.length b.segments.length) ∧
        vcmp a b ≠ .gt) ∨
      (vcmp a b ≠ .lt ∧
        padList a.segments (max a.segments.length b.segments.length) ≠
          padList b.segments (max a.segments.length b.segments.length) ∧
        vcmp a b = .gt) := by
  have hiff := lexPad_eq_iff_padList ha hb
  rcases h : vcmp a b with _ | _ | _
  · refine .inl ⟨rfl, ?_, by decide⟩
    intro he
    have h3 : vcmp a b = .eq := hiff.mpr he
    exact absurd (h.symm.trans h3) (by decide)
  · exact .inr (.inl ⟨by decide, hiff.mp h, by decide⟩)
  · refine .inr (.inr ⟨by decide, ?_, rfl⟩)
    intro he
    have h3 : vcmp a b = .eq := hiff.mpr he
    exact absurd (h.symm.trans h3) (by decide)

theorem C8_order_trichotomy_witness :
    (vcmp (RubyVersion.parse "1.2".data) (RubyVersion.parse "1.2.0".data) = .lt ∧
        padList (RubyVersion.parse "1.2".data).segments
            (max (RubyVersion.parse "1.2".data).segments.length
              (RubyVersion.parse "1.2.0".data).segments.length) ≠
          padList (RubyVersion.parse "1.2.0".data).segments
            (max (RubyVersion.parse "1.2".data).segments.length
              (RubyVersion.parse "1.2.0".data).segments.length) ∧
        vcmp (RubyVersion.parse "1.2".data) (RubyVersion.parse "1.2.0".data) ≠ .gt) ∨
      (vcmp (RubyVersion.parse "1.2".data) (RubyVersion.parse "1.2.0".data) ≠ .lt ∧
        padList (RubyVersion.parse "1.2".data).segments
            (max (RubyVersion.parse "1.2".data).segments.length
              (RubyVersion.parse "1.2.0".data).segments.length) =
          padList (RubyVersion.parse "1.2.0".data).segments
            (max (RubyVersion.parse "1.2".data).segments.length
              (RubyVersion.parse "1.2.0".data).segments.length) ∧
        vcmp (RubyVersion.parse "1.2".data) (RubyVersion.parse "1.2.0".data) ≠ .gt) ∨
      (vcmp (RubyVersion.parse "1.2".data) (RubyVersion.parse "1.2.0".data) ≠ .lt ∧
        padList (RubyVersion.parse "1.2".data).segments
            (max (RubyVersion.parse "1.2".data).segments.length
              (RubyVersion.parse "1.2.0".data).segments.length) ≠
          padList (RubyVersion.parse "1.2.0".data).segments
            (max (RubyVersion.parse "1.2".data).segments.length
              (RubyVersion.parse "1.2.0".data).segments.length) ∧
        vcmp (RubyVersion.parse "1.2".data) (RubyVersion.parse "1.2.0".data) = .gt) :=
  C8_order_trichotomy (RubyVersion.parse "1.2".data) (RubyVersion.parse "1.2.0".data)
    (by decide) (by decide)

/-- C9: a platform-tagged version never enters the universe: every
entry produced by parsing an `/info/<name>` file has a version with no
platform tag, because any line whose version parses with a platform
segment is skipped during universe construction. -/
theorem C9_no_platform_in_universe (gem : Str) (lines : List Str)
    (vs : List GemVersion) (h : parseInfoLines gem lines = some vs) :
    ∀ gv ∈ vs, gv.version.is_platform = false := by
  induction lines generalizing vs with
  | nil =>
    simp only [parseInfoLines, Option.some.injEq] at h
    subst h
    intro gv hgv
    cases hgv
  | cons raw rest ih =>
    simp only [parseInfoLines] at h
    by_cases hDash : "---".data.isPrefixOf raw
    · rw [if_pos hDash] at h
      exact ih _ h
    · rw [if_neg hDash] at h
      by_cases hPlat :
          (RubyVersion.parse (splitn2Char ' ' ((splitOnChar '|' raw).headD raw)).1).is_platform
      · rw [if_pos hPlat] at h
        exact ih _ h
      · rw [if_neg hPlat] at h
        rcases hd : parseDeps (splitOnChar ','
            ((splitn2Char ' ' ((splitOnChar '|' raw).headD raw)).2.getD [])) with _ | deps
        · rw [hd] at h
          cases h
        · rw [hd] at h
          rcases hr : parseInfoLines gem rest with _ | vs0
          · rw [hr] at h
            cases h
          · rw [hr] at h
            have h2 : ({ name := gem, version := RubyVersion.parse (splitn2Char ' ' ((splitOnChar '|' raw).headD raw)).1, checksum := none, dependencies := deps } : GemVersion) :: vs0 = vs := by
              simpa using h
            subst h2
            intro gv hgv
            rcases List.mem_cons.mp hgv with hgv | hgv
            · subst hgv
              simpa using eq_false_of_ne_true (fun hh => hPlat (by simpa using hh))
            · exact ih _ hr gv hgv

theorem C9_no_platform_witness :
    parseInfoLines "g".data ["---".data, "1.2.3".data] = some
      [{ name := "g".data
         version := { segments := [.numeric 1, .numeric 2, .numeric 3], platform_segment := none }
         checksum := none, dependencies := [] }] ∧
    ({ name := "g".data
       version := { segments := [.numeric 1, .numeric 2, .numeric 3], platform_segment := none }
       checksum := none, dependencies := [] } : GemVersion).version.is_platform = false :=
  ⟨by decide,
    C9_no_platform_in_universe "g".data ["---".data, "1.2.3".data]
      [{ name := "g".data
         version := { segments := [.numeric 1, .numeric 2, .numeric 3], platform_segment := none }
         checksum := none, dependencies := [] }]
      (by decide)
      ({ name := "g".data
         version := { segments := [.numeric 1, .numeric 2, .numeric 3], platform_segment := none }
         checksum := none, dependencies := [] })
      (by decide)⟩

/-- C7: on a 206 response when the cached file exists, the client
appends the response body minus its first byte, so when the body is the
suffix of the full file starting at the cached file's last byte, the
post-append file equals the full file; in particular for cached
`"L1\nL2\n"` and a 206 body consisting of the last byte of `"L2\n"`
followed by `"L3\n"`, the resulting content is `"L1\nL2\nL3\n"`. -/
theorem C7_append_protocol :
    (∀ cached full : Str, cached ≠ [] → cached <+: full →
      processResponseCache true (some cached) (full.drop (cached.length - 1)) =
        some (some full)) ∧
    processResponseCache true (some "L1\nL2\n".data) "\nL3\n".data =
      some (some "L1\nL2\nL3\n".data) := by
  constructor
  · intro cached full hne hpre
    obtain ⟨t, ht⟩ := hpre
    have hlc : 1 ≤ cached.length := List.length_pos.mpr hne
    have hlf : cached.length ≤ full.length := by
      rw [← ht]
      simp
    simp only [processResponseCache, Option.isSome_some, Bool.and_true, if_pos rfl]
    have hbody : 1 ≤ (full.drop (cached.length - 1)).length := by
      simp only [List.length_drop]
      omega
    rw [show sliceFrom (full.drop (cached.length - 1)) 1 =
        some ((full.drop (cached.length - 1)).drop 1) from by
      unfold sliceFrom
      rw [if_pos hbody]]
    have hdd : (full.drop (cached.length - 1)).drop 1 = full.drop cached.length := by
      rw [List.drop_drop]
      congr 1
      omega
    rw [hdd, ← ht, List.drop_left]
    simp
  · decide

theorem C7_append_protocol_witness :
    processResponseCache true (some "L1\nL2\n".data)
        ("L1\nL2\nL3\n".data.drop ("L1\nL2\n".data.length - 1)) =
      some (some "L1\nL2\nL3\n".data) :=
  C7_append_protocol.1 "L1\nL2\n".data "L1\nL2\nL3\n".data (by decide) (by decide)

/-- C10: the 206 append path slices the body as `body[1..]`; the slice
is in bounds, and the operation defined, exactly when the body has length
at least 1; a zero-length body makes the index out of bounds (the modelled
panic). -/
theorem C10_append_slice_bounds :
    (∀ body : Str, (sliceFrom body 1).isSome = true ↔ 1 ≤ body.length) ∧
    (∀ cached body : Str,
      (processResponseCache true (some cached) body).isSome = true ↔ 1 ≤ body.length) ∧
    processResponseCache true (some "x".data) [] = none := by
  refine ⟨fun body => ?_, fun cached body => ?_, by decide⟩
  · unfold sliceFrom
    by_cases h : 1 ≤ body.length
    · simp [h]
    · simp [h]
  · simp only [processResponseCache, Option.isSome_some, Bool.and_true, if_pos rfl]
    unfold sliceFrom
    by_cases h : 1 ≤ body.length
    · simp [h]
    · simp [h]

/-- Filesystem fixture: only the ETag file `cache/versions.etag` exists
(content `abcdef`, 6 bytes); the data file `cache/versions` does not. -/
def fsOnlyEtag : Str → Option Str := fun p =>
  if p = "cache/versions.etag".data then some "abcdef".data else none

/-- Filesystem fixture: the data file `cache/versions` exists with 10
bytes and its ETag file `cache/versions.etag` exists with 6 bytes. -/
def fsBothFiles : Str → Option Str := fun p =>
  if p = "cache/versions".data then some "0123456789".data
  else if p = "cache/versions.etag".data then some "abcdef".data
  else none

/-- C2 is false as stated: for the `versions` endpoint, (1) in a state
where the ETag file `P.etag` exists but the cached data file `P` does not,
the code sends neither header, while the claim requires both; (2) in a
state where both exist, the `Range` length is the size of the file at the
`etag_path` argument (here the 10-byte data file, giving `bytes=9-`), not
the size of the 6-byte ETag file (which would give `bytes=5-`). -/
theorem C2_headers_counterexample :
    (fsOnlyEtag "cache/versions.etag".data).isSome = true ∧
    versionsUpdateHeaders fsOnlyEtag "cache".data = (none, none) ∧
    versionsUpdateHeaders fsBothFiles "cache".data =
      (some "abcdef".data, some "bytes=9-".data) ∧
    "bytes=9-".data ≠ "bytes=5-".data := by
  refine ⟨rfl, by decide, by decide, by decide⟩

/-- C2, amended: `update_cache` gates both conditional headers on the
existence of a file at its `etag_path` argument (which is the cached data
file itself for `/versions`, and the never-written extensionless
`info-etags/<name>` for `/info/<name>`), not on the ETag file `P.etag`:
when that file exists, `If-None-Match` is sent exactly when the sibling
`.etag` file also exists, carrying that file's recorded content, and
`Range: bytes=<len-1>-` is sent exactly when the file at `etag_path` is
non-empty, where `len` is the size of the file at `etag_path` itself;
when no file exists at `etag_path`, neither header is sent. -/
theorem C2_headers_amended (fs : Str → Option Str) (p : Str) :
    (∀ e, (updateCacheHeaders fs p).1 = some e ↔
      (fs p).isSome = true ∧ fs (withExtEtag p) = some e) ∧
    (∀ r, (updateCacheHeaders fs p).2 = some r ↔
      ∃ data, fs p = some data ∧ 0 < data.length ∧
        r = "bytes=".data ++ natToStr (data.length - 1) ++ "-".data) ∧
    ((fs p).isSome = false → updateCacheHeaders fs p = (none, none)) := by
  refine ⟨fun e => ?_, fun r => ?_, fun h => ?_⟩
  · unfold updateCacheHeaders
    rcases h : fs p with _ | data
    · simp [h]
    · simp [h]
  · unfold updateCacheHeaders
    rcases h : fs p with _ | data
    · simp [h]
    · simp only [h, Option.isSome_some, if_pos rfl]
      by_cases hl : 0 < data.length
      · simp only [if_pos hl]
        constructor
        · intro he
          exact ⟨data, rfl, hl, ((Option.some.injEq ..).mp he.symm).symm.symm⟩
        · rintro ⟨d, hd, _, hr⟩
          have hdd : data = d := (Option.some.injEq ..).mp hd
          subst hdd
          rw [hr]
          simp
      · simp only [if_neg hl]
        constructor
        · intro he
          cases he
        · rintro ⟨d, hd, hdl, _⟩
          have hdd : data = d := (Option.some.injEq ..).mp hd
          subst hdd
          exact absurd hdl hl
  · unfold updateCacheHeaders
    rw [h]
    simp

theorem C2_headers_amended_witness :
    (updateCacheHeaders fsBothFiles "cache/versions".data).2 = some "bytes=9-".data :=
  ((C2_headers_amended fsBothFiles "cache/versions".data).2.1 "bytes=9-".data).mpr
    ⟨"0123456789".data, by decide, by decide, by decide⟩

/-- The `allow_pre` contribution of one clause as the code computes it:
a literal `*` clause contributes nothing to the conjunction (counted as
`true` here), and any other clause contributes
`op == "=" && version.is_prerelease()`. -/
def clauseAllowPre (part : Str) : Bool :=
  let s := trimStr part
  s = "*".data ||
    ((detectOp s).1 = "=".data && (RubyVersion.parse (detectOp s).2).is_prerelease)

/-- C3 is false as stated: the requirement `"*"` — which has no `=`
clause with a pre-release version — parses with `allow_pre = true` (the
`*` shortcut returns `RichReq::full()`, whose `allow_pre` is `true`),
where the claim requires `allow_pre = false`. -/
theorem C3_allow_pre_counterexample :
    parse_req "*".data ',' = some (RichReq.full, []) ∧
    RichReq.full.allow_pre = true := by
  exact ⟨by decide, rfl⟩

theorem parseClauses_allow_pre :
    ∀ (parts : List Str) (set : RichReq) (strs : List Str) (req : RichReq)
      (strs' : List Str),
      parseClauses parts set strs = some (req, strs') →
      req.allow_pre = (set.allow_pre && parts.all clauseAllowPre) := by
  intro parts
  induction parts with
  | nil =>
    intro set strs req strs' h
    simp only [parseClauses, Option.some.injEq, Prod.mk.injEq] at h
    rw [← h.1]
    simp
  | cons part rest ih =>
    intro set strs req strs' h
    simp only [parseClauses] at h
    by_cases hstar : trimStr part = "*".data
    · rw [if_pos hstar] at h
      have hc : clauseAllowPre part = true := by
        unfold clauseAllowPre
        rw [hstar]
        simp
      rw [List.all_cons, hc, Bool.true_and]
      exact ih _ _ _ _ h
    · rw [if_neg hstar] at h
      rcases hrng : clauseRange (detectOp (trimStr part)).1
          (RubyVersion.parse (detectOp (trimStr part)).2) with _ | rng
      · rw [hrng] at h
        cases h
      · rw [hrng] at h
        have hstep := ih _ _ _ _ h
        have hc : clauseAllowPre part =
            ((detectOp (trimStr part)).1 = "=".data &&
              (RubyVersion.parse (detectOp (trimStr part)).2).is_prerelease) := by
          unfold clauseAllowPre
          simp [hstar]
        rw [hstep]
        simp only [RichReq.intersection, List.all_cons, hc, Bool.and_assoc]

/-- C3, amended: `allow_pre` is true iff *every* clause other than a
literal `*` is an `=` clause whose version is a pre-release (the set
starts from `RichReq::full()`, whose flag is `true`, and each clause's
contribution is conjoined); in particular `"*"` has `allow_pre = true`,
`">= 1.0"` has `allow_pre = false`, and the multi-clause
`"= 1.0.0.pre, >= 0"` has `allow_pre = false` because of its second
clause. -/
theorem C3_allow_pre_amended (text : Str) (sep : Char) (req : RichReq)
    (strs : List Str) (h : parse_req text sep = some (req, strs)) :
    req.allow_pre =
      (trimStr text = "*".data || (splitOnChar sep text).all clauseAllowPre) := by
  unfold parse_req at h
  by_cases hstar : trimStr text = "*".data
  · rw [if_pos hstar] at h
    simp only [Option.some.injEq, Prod.mk.injEq] at h
    rw [← h.1]
    simp [hstar, RichReq.full]
  · rw [if_neg hstar] at h
    rw [parseClauses_allow_pre _ _ _ _ _ h]
    simp [RichReq.full, hstar]

theorem C3_allow_pre_amended_witness :
    parse_req ">= 1.0".data ',' = some
      ({ range := [(.included { segments := [.numeric 1, .numeric 0], platform_segment := none },
          .unbounded)], allow_pre := false }, [">= 1.0".data]) ∧
    (({ range := [(.included { segments := [.numeric 1, .numeric 0], platform_segment := none },
          .unbounded)], allow_pre := false } : RichReq).allow_pre =
      (trimStr ">= 1.0".data = "*".data || (splitOnChar ',' ">= 1.0".data).all clauseAllowPre)) :=
  ⟨by decide,
    C3_allow_pre_amended ">= 1.0".data ','
      { range := [(.included { segments := [.numeric 1, .numeric 0], platform_segment := none },
          .unbounded)], allow_pre := false }
      [">= 1.0".data] (by decide)⟩

/-- C5 is false as stated: the clause `"?? 1.2"` has an unrecognized
operator prefix, yet requirement parsing succeeds (no error is reported):
it falls through to the default `=` arm and returns the singleton
requirement at the (textual, hence pre-release) version parsed from the
clause text. -/
theorem C5_unknown_op_counterexample :
    hasKnownOp (trimStr "?? 1.2".data) = false ∧
    parse_req "?? 1.2".data ',' = some
      ({ range := [(.included { segments := [.text "?? 1".data, .numeric 2],
                                platform_segment := none },
                    .included { segments := [.text "?? 1".data, .numeric 2],
                                platform_segment := none })],
         allow_pre := true },
       ["?? 1.2".data]) := by
  exact ⟨by decide, by decide⟩

/-- C5, amended: a requirement clause whose operator prefix is not one
of the recognized operators is not a parse error: the clause is handled by
the default `=` arm (the version text is the clause with leading `=`
characters stripped, trimmed), parsing succeeds, and the resulting range
accepts exactly the versions that compare equal to the parsed version. -/
theorem C5_unknown_op_amended (s : Str)
    (h1 : hasKnownOp (trimStr s) = false) (h2 : trimStr s ≠ "*".data)
    (h3 : splitOnChar ',' s = [s]) :
    parse_req s ',' = some
      ({ range := [(.included (RubyVersion.parse
            (trimStr ((trimStr s).dropWhile (fun c => c = '=')))),
          .included (RubyVersion.parse
            (trimStr ((trimStr s).dropWhile (fun c => c = '=')))))],
         allow_pre := (RubyVersion.parse
            (trimStr ((trimStr s).dropWhile (fun c => c = '=')))).is_prerelease },
       [trimStr s]) ∧
    (∀ w, Ranges.contains
        [(.included (RubyVersion.parse
            (trimStr ((trimStr s).dropWhile (fun c => c = '=')))),
          .included (RubyVersion.parse
            (trimStr ((trimStr s).dropWhile (fun c => c = '=')))))] w = true ↔
      vcmp (RubyVersion.parse (trimStr ((trimStr s).dropWhile (fun c => c = '=')))) w = .eq) := by
  have hdet : detectOp (trimStr s) =
      ("=".data, trimStr ((trimStr s).dropWhile (fun c => c = '='))) := by
    unfold detectOp
    split_ifs
    all_goals first
      | rfl
      | (exfalso
         unfold hasKnownOp at h1
         simp_all)
  constructor
  · unfold parse_req
    rw [if_neg h2, h3]
    simp only [parseClauses]
    simp only [hdet]
    rw [if_neg h2]
    simp [clauseRange, RichReq.intersection, RichReq.full, Ranges.intersection,
      Ranges.full, Ranges.singleton, lbMax, ubMin, parseClauses]
  · intro w
    simp only [Ranges.contains, List.any_cons, List.any_nil, Bool.or_false,
      Bool.and_eq_true, lbSat, ubSat]
    constructor
    · rintro ⟨hlo, hhi⟩
      have hlo' : vcmp (RubyVersion.parse (trimStr ((trimStr s).dropWhile (fun c => c = '=')))) w ≠ .gt := by
        simpa using hlo
      have hhi' : vcmp w (RubyVersion.parse (trimStr ((trimStr s).dropWhile (fun c => c = '=')))) ≠ .gt := by
        simpa using hhi
      have hnlt : vcmp (RubyVersion.parse (trimStr ((trimStr s).dropWhile (fun c => c = '=')))) w ≠ .lt :=
        fun hlt => hhi' (vcmp_eq_gt.mpr hlt)
      rcases hv : vcmp (RubyVersion.parse (trimStr ((trimStr s).dropWhile (fun c => c = '=')))) w with _ | _ | _
      · exact absurd hv hnlt
      · rfl
      · exact absurd hv hlo'
    · intro heq
      refine ⟨by simp [heq], ?_⟩
      have : vcmp w (RubyVersion.parse (trimStr ((trimStr s).dropWhile (fun c => c = '=')))) = .eq :=
        Batteries.OrientedCmp.cmp_eq_eq_symm.mp heq
      simp [this]

theorem C5_unknown_op_amended_witness :
    parse_req "@@ 2.0".data ',' = some
      ({ range := [(.included (RubyVersion.parse
            (trimStr ((trimStr "@@ 2.0".data).dropWhile (fun c => c = '=')))),
          .included (RubyVersion.parse
            (trimStr ((trimStr "@@ 2.0".data).dropWhile (fun c => c = '=')))))],
         allow_pre := (RubyVersion.parse
            (trimStr ((trimStr "@@ 2.0".data).dropWhile (fun c => c = '=')))).is_prerelease },
       [trimStr "@@ 2.0".data]) :=
  (C5_unknown_op_amended "@@ 2.0".data (by decide) (by decide) (by decide)).1

/-- C6: for the pessimistic operator `~> v` the per-clause range is
the half-open interval `[v, upper)` (lower bound inclusive at `v`), where
`upper` is `bump(v)` when `v` has three or more segments and otherwise is
`v` with its leading (major) segment incremented and the list truncated to
that single segment; consequently `~> 1.1` contains `1.10.0` and
`1.11.0`, `~> 1.5` contains `1.5.0` and `1.9.9` but not `2.0.0`, and
`~> 1.6` contains `1.8.0`. -/
theorem C6_pessimistic_range :
    (∀ (rv u : RubyVersion), rv.segments ≠ [] → pessimisticUpper rv = some u →
      clauseRange "~>".data rv = some (Ranges.between rv u) ∧
      (∀ w, Ranges.contains (Ranges.between rv u) w = true ↔
        (vcmp rv w ≠ .gt ∧ vcmp w u = .lt)) ∧
      (2 < rv.segments.length → u = rv.bump) ∧
      (¬ 2 < rv.segments.length → ∀ s0 rest, rv.segments = s0 :: rest →
        u = { rv with segments := [match s0 with
          | .numeric maj => Segment.numeric ((maj + 1) % 2 ^ 64)
          | s => s] })) ∧
    (parse_req "~> 1.1".data ',').map
      (fun r => r.1.contains (RubyVersion.parse "1.10.0".data)) = some true ∧
    (parse_req "~> 1.1".data ',').map
      (fun r => r.1.contains (RubyVersion.parse "1.11.0".data)) = some true ∧
    (parse_req "~> 1.5".data ',').map
      (fun r => r.1.contains (RubyVersion.parse "1.5.0".data)) = some true ∧
    (parse_req "~> 1.5".data ',').map
      (fun r => r.1.contains (RubyVersion.parse "1.9.9".data)) = some true ∧
    (parse_req "~> 1.5".data ',').map
      (fun r => r.1.contains (RubyVersion.parse "2.0.0".data)) = some false ∧
    (parse_req "~> 1.6".data ',').map
      (fun r => r.1.contains (RubyVersion.parse "1.8.0".data)) = some true := by
  refine ⟨?_, by decide, by decide, by decide, by decide, by decide, by decide⟩
  intro rv u hne hu
  have hcr : clauseRange "~>".data rv =
      (pessimisticUpper rv).map (fun next => Ranges.between rv next) := rfl
  refine ⟨by rw [hcr, hu]; rfl, fun w => ?_, ?_, ?_⟩
  · simp only [Ranges.contains, Ranges.between, List.any_cons, List.any_nil,
      Bool.or_false, Bool.and_eq_true, lbSat, ubSat, decide_eq_true_eq]
  · intro hlen
    unfold pessimisticUpper at hu
    rw [if_pos hlen] at hu
    exact ((Option.some.injEq ..).mp hu).symm
  · intro hlen s0 rest hseg
    unfold pessimisticUpper at hu
    rw [if_neg hlen, hseg] at hu
    simp only [Option.some.injEq] at hu
    rw [← hu]

theorem C6_pessimistic_range_witness :
    clauseRange "~>".data (RubyVersion.parse "1.5".data) =
      some (Ranges.between (RubyVersion.parse "1.5".data)
        { segments := [.numeric 2], platform_segment := none }) :=
  (C6_pessimistic_range.1 (RubyVersion.parse "1.5".data)
    { segments := [.numeric 2], platform_segment := none }
    (by decide) (by decide)).1

theorem insOrd_perm (le : α → α → Bool) (x : α) :
    ∀ l : List α, (insOrd le x l).Perm (x :: l) := by
  intro l
  induction l with
  | nil => rfl
  | cons y ys ih =>
    simp only [insOrd]
    by_cases h : le y x = true
    · rw [if_pos h]
      exact (ih.cons y).trans (List.Perm.swap x y ys)
    · rw [if_neg h]

theorem sortOrd_perm (le : α → α → Bool) :
    ∀ l : List α, (sortOrd le l).Perm l := by
  intro l
  induction l with
  | nil => rfl
  | cons x xs ih =>
    exact (insOrd_perm le x (sortOrd le xs)).trans (ih.cons x)

theorem insOrd_mem {le : α → α → Bool} {x a : α} {l : List α}
    (h : a ∈ insOrd le x l) : a = x ∨ a ∈ l := by
  have := (insOrd_perm le x l).mem_iff.mp h
  simpa using this

theorem insOrd_pairwise {le : α → α → Bool}
    (htot : ∀ a b, le a b = true ∨ le b a = true)
    (htrans : ∀ a b c, le a b = true → le b c = true → le a c = true)
    (x : α) : ∀ {l : List α}, l.Pairwise (fun a b => le a b = true) →
      (insOrd le x l).Pairwise (fun a b => le a b = true) := by
  intro l
  induction l with
  | nil =>
    intro _
    exact List.pairwise_singleton _ x
  | cons y ys ih =>
    intro h
    rw [List.pairwise_cons] at h
    simp only [insOrd]
    by_cases hle : le y x = true
    · rw [if_pos hle]
      rw [List.pairwise_cons]
      refine ⟨?_, ih h.2⟩
      intro a ha
      rcases insOrd_mem ha with rfl | ha
      · exact hle
      · exact h.1 a ha
    · rw [if_neg hle]
      have hxy : le x y = true := (htot x y).resolve_right (fun hh => hle hh)
      rw [List.pairwise_cons]
      refine ⟨?_, List.pairwise_cons.mpr h⟩
      intro a ha
      rcases List.mem_cons.mp ha with rfl | ha
      · exact hxy
      · exact htrans x y a hxy (h.1 a ha)

theorem sortOrd_pairwise {le : α → α → Bool}
    (htot : ∀ a b, le a b = true ∨ le b a = true)
    (htrans : ∀ a b c, le a b = true → le b c = true → le a c = true) :
    ∀ l : List α, (sortOrd le l).Pairwise (fun a b => le a b = true) := by
  intro l
  induction l with
  | nil => exact List.Pairwise.nil
  | cons x xs ih => exact insOrd_pairwise htot htrans x ih

theorem byName_total (a b : Str × β) : byName a b = true ∨ byName b a = true := by
  unfold byName
  by_cases h : strCmp a.1 b.1 = .gt
  · right
    have := strCmp_swap a.1 b.1
    rw [h] at this
    simp only [decide_eq_true_eq]
    intro hgt
    rw [hgt] at this
    exact absurd this.symm (by decide)
  · left
    simp only [decide_eq_true_eq]
    exact h

theorem byName_trans (a b c : Str × β) (h1 : byName a b = true) (h2 : byName b c = true) :
    byName a c = true := by
  unfold byName at *
  simp only [decide_eq_true_eq] at *
  exact strCmp_le_trans h1 h2

/-- C4 is false as stated: for stored raw requirement strings
`["< 2", ">= 0"]` — not all of which equal `">= 0"` — the claim demands
the parenthesized suffix `(>= 0, < 2)`, but the writer omits it (it emits
the suffix only when *no* clause equals `">= 0"`), in both the `specs:`
and the `DEPENDENCIES` sections. -/
theorem C4_lockfile_counterexample :
    specDepLine "rails".data ["< 2".data, ">= 0".data] = "      rails\n".data ∧
    "      rails\n".data ≠ "      rails (>= 0, < 2)\n".data ∧
    ¬(∀ r ∈ ["< 2".data, ">= 0".data], r = ">= 0".data) ∧
    rootDepLine "a".data ["< 2".data, ">= 0".data] = "  a\n".data ∧
    "  a\n".data ≠ "  a (< 2, >= 0)\n".data := by
  refine ⟨by decide, by decide, by decide, by decide, by decide⟩

/-- C4, amended: in the `specs:` section each dependency line renders
the raw requirement strings reversed from storage order, joined with
`", "` and wrapped in parentheses, and the parenthesized suffix is
omitted exactly when *some* clause equals `">= 0"`; the `DEPENDENCIES`
section follows the same omission rule without the reversal; and the
dependency lists are emitted sorted ascending by name (the writer sorts
with a stable sort, producing a permutation that is pairwise
nondecreasing on names). -/
theorem C4_lockfile_amended :
    (∀ (dg : Str) (dr : List Str),
      specDepLine dg dr = "      ".data ++ dg ++
        (if ∃ r ∈ dr, r = ">= 0".data then []
         else " (".data ++ List.intercalate ", ".data dr.reverse ++ ")".data) ++
        "\n".data) ∧
    (∀ (dg : Str) (dr : List Str),
      rootDepLine dg dr = "  ".data ++ dg ++
        (if ∃ r ∈ dr, r = ">= 0".data then []
         else " (".data ++ List.intercalate ", ".data dr ++ ")".data) ++
        "\n".data) ∧
    (∀ deps : List (Str × List Str),
      (sortOrd byName deps).Pairwise (fun a b => strCmp a.1 b.1 ≠ .gt) ∧
      (sortOrd byName deps).Perm deps) := by
  refine ⟨fun dg dr => ?_, fun dg dr => ?_, fun deps => ⟨?_, sortOrd_perm byName deps⟩⟩
  · simp only [specDepLine]
    by_cases hex : ∃ r ∈ dr, r = ">= 0".data
    · have hall : (dr.reverse.all (fun r => r ≠ ">= 0".data)) = false := by
        obtain ⟨r0, hm, he⟩ := hex
        simp only [List.all_eq_false]
        exact ⟨r0, List.mem_reverse.mpr hm, by simp [he]⟩
      rw [hall]
      simp [hex]
    · have hall : (dr.reverse.all (fun r => r ≠ ">= 0".data)) = true := by
        simp only [List.all_eq_true, decide_eq_true_eq]
        intro r hm
        push_neg at hex
        exact hex r (List.mem_reverse.mp hm)
      rw [hall]
      simp [hex]
  · simp only [rootDepLine]
    by_cases hex : ∃ r ∈ dr, r = ">= 0".data
    · have hall : (dr.all (fun r => r ≠ ">= 0".data)) = false := by
        obtain ⟨r0, hm, he⟩ := hex
        simp only [List.all_eq_false]
        exact ⟨r0, hm, by simp [he]⟩
      rw [hall]
      simp [hex]
    · have hall : (dr.all (fun r => r ≠ ">= 0".data)) = true := by
        simp only [List.all_eq_true, decide_eq_true_eq]
        intro r hm
        push_neg at hex
        exact hex r hm
      rw [hall]
      simp [hex]
  · have := sortOrd_pairwise byName_total byName_trans deps
    refine this.imp ?_
    intro a b h
    unfold byName at h
    simpa using h

theorem foldMax_spec (l : List RubyVersion) :
    ∀ x : RubyVersion,
      (l.foldl (fun m v => if vcmp m v = .lt then v else m) x ∈ x :: l) ∧
      (∀ w ∈ x :: l,
        vcmp w (l.foldl (fun m v => if vcmp m v = .lt then v else m) x) ≠ .gt) := by
  induction l with
  | nil =>
    intro x
    refine ⟨List.mem_singleton.mpr rfl, ?_⟩
    intro w hw
    rw [List.mem_singleton.mp hw]
    simp only [List.foldl_nil]
    rw [vcmp_refl x]
    decide
  | cons y ys ih =>
    intro x
    simp only [List.foldl_cons]
    have hstep : vcmp x (if vcmp x y = .lt then y else x) ≠ .gt ∧
        vcmp y (if vcmp x y = .lt then y else x) ≠ .gt := by
      by_cases hxy : vcmp x y = .lt
      · rw [if_pos hxy]
        refine ⟨by rw [hxy]; decide, by rw [vcmp_refl y]; decide⟩
      · rw [if_neg hxy]
        refine ⟨by rw [vcmp_refl x]; decide, ?_⟩
        intro hgt
        exact hxy (vcmp_eq_gt.mp hgt)
    obtain ⟨hmem, hbound⟩ := ih (if vcmp x y = .lt then y else x)
    constructor
    · rcases List.mem_cons.mp hmem with he | hm
      · rw [he]
        by_cases hxy : vcmp x y = .lt
        · rw [if_pos hxy]
          exact List.mem_cons_of_mem x (List.mem_cons_self y ys)
        · rw [if_neg hxy]
          exact List.mem_cons_self x (y :: ys)
      · exact List.mem_cons_of_mem x (List.mem_cons_of_mem y hm)
    · intro w hw
      have hhead := hbound (if vcmp x y = .lt then y else x)
        (List.mem_cons_self _ ys)
      rcases List.mem_cons.mp hw with he | hw2
      · rw [he]
        exact Batteries.TransCmp.le_trans hstep.1 hhead
      · rcases List.mem_cons.mp hw2 with he | hw3
        · rw [he]
          exact Batteries.TransCmp.le_trans hstep.2 hhead
        · exact hbound w (List.mem_cons_of_mem _ hw3)

/-- Requirement fixture: `~> 1.1` as parsed by `parse_req`. -/
def reqRootA : RichReq := ((parse_req "~> 1.1".data ',').getD (RichReq.empty, [])).1

/-- Requirement fixture: `~> 1.4` as parsed by `parse_req`. -/
def reqC14 : RichReq := ((parse_req "~> 1.4".data ',').getD (RichReq.empty, [])).1

/-- Requirement fixture: `~> 1.7.0` as parsed by `parse_req`. -/
def reqC170 : RichReq := ((parse_req "~> 1.7.0".data ',').getD (RichReq.empty, [])).1

/-- The universe of the transitive-resolution scenario: root depends on
`a` `~> 1.1`; `a 1.10.0` depends on `c` `~> 1.4`; `a 1.11.0` depends on
`c` `~> 1.7.0`; `c` has versions `1.7.0` and `1.8.0`. -/
def univC1 : Universe :=
  [("root".data, RubyVersion.new 0 0 0, [("a".data, reqRootA)]),
   ("a".data, RubyVersion.parse "1.10.0".data, [("c".data, reqC14)]),
   ("a".data, RubyVersion.parse "1.11.0".data, [("c".data, reqC170)]),
   ("c".data, RubyVersion.parse "1.7.0".data, []),
   ("c".data, RubyVersion.parse "1.8.0".data, [])]

/-- C1: the choose-version step enumerates every version of the
package in the universe, keeps those the remaining allowed set contains,
and chooses the maximum under the total version order (any chosen version
is an admissible universe version and no admissible universe version
exceeds it); on the scenario universe, resolution from root's dependency
`a ~> 1.1` returns the assignment `a = 1.11.0`, `c = 1.7.0`, which
satisfies root's constraint on `a` and `a 1.11.0`'s constraint
`~> 1.7.0` on `c`. -/
theorem C1_choose_version_and_resolution :
    (∀ (univ : Universe) (p : Str) (r : RichReq) (v : RubyVersion),
      chooseVersion univ p r = some v →
      v ∈ versionsOf univ p ∧ r.contains v = true ∧
      ∀ w ∈ versionsOf univ p, r.contains w = true → vcmp w v ≠ .gt) ∧
    resolveSteps univC1 6 [("a".data, reqRootA)] [] =
      some [("a".data, RubyVersion.parse "1.11.0".data),
            ("c".data, RubyVersion.parse "1.7.0".data)] ∧
    reqRootA.contains (RubyVersion.parse "1.11.0".data) = true ∧
    reqC170.contains (RubyVersion.parse "1.7.0".data) = true ∧
    depsOf univC1 "a".data (RubyVersion.parse "1.11.0".data) = [("c".data, reqC170)] := by
  refine ⟨?_, by decide, by decide, by decide, by decide⟩
  intro univ p r v h
  unfold chooseVersion at h
  rcases hl : (versionsOf univ p).filter (fun v => r.contains v) with _ | ⟨x, xs⟩
  · rw [hl] at h
    cases h
  · rw [hl] at h
    simp only [pickMax, Option.some.injEq] at h
    obtain ⟨hmem, hbound⟩ := foldMax_spec xs x
    rw [h] at hmem hbound
    have hvl : v ∈ (versionsOf univ p).filter (fun v => r.contains v) := by
      rw [hl]
      exact hmem
    have hvf := List.mem_filter.mp hvl
    refine ⟨hvf.1, by simpa using hvf.2, ?_⟩
    intro w hw hc
    have hwl : w ∈ (versionsOf univ p).filter (fun v => r.contains v) :=
      List.mem_filter.mpr ⟨hw, by simpa using hc⟩
    rw [hl] at hwl
    exact hbound w hwl

theorem C1_choose_version_witness :
    RubyVersion.parse "1.11.0".data ∈ versionsOf univC1 "a".data ∧
    reqRootA.contains (RubyVersion.parse "1.11.0".data) = true :=
  have h := C1_choose_version_and_resolution.1 univC1 "a".data reqRootA
    (RubyVersion.parse "1.11.0".data) (by decide)
  ⟨h.1, h.2.1⟩

end Bundle
